import Mathlib

/-
Verification of the extraction-and-classification core of the
pdf_file_organizer repository (src/pdf_organizer.py, class PDFOrganizer).

The embedding models the three pure text functions of the core:
  * analyze_text          (lines 89-119)  -- the Pattern Extractor
  * extract_username      (lines 121-153) -- username resolution cascade
  * extract_project_type  (lines 155-177) -- project-type resolution cascade
together with the regular expressions they use.  Python `re` is embedded by
hand-written matchers that reproduce, pattern by pattern, the backtracking
behaviour of the six field regexes and of the tabular `re.search` regex on
arbitrary input; strings are modelled as their list of unicode scalar values
(Python `str` code points = Lean `Char`).
-/

namespace PdfOrganizer

/-! ### Character classes -/

/-- Closed range test on code points. -/
def inRange (lo hi : Nat) (c : Char) : Bool :=
  decide (lo ≤ c.toNat) && decide (c.toNat ≤ hi)

/-- Python whitespace: the set matched by `\s` in a unicode pattern and
stripped by `str.strip()` (ASCII whitespace, the C1 separators, NEL, NBSP,
OGHAM space, the U+2000 block, LS, PS, NNBSP, MMSP, ideographic space). -/
def isPyWs (c : Char) : Bool :=
  c = ' ' || inRange 0x9 0xD c || inRange 0x1C 0x1F c ||
  c.toNat = 0x85 || c.toNat = 0xA0 || c.toNat = 0x1680 ||
  inRange 0x2000 0x200A c || c.toNat = 0x2028 || c.toNat = 0x2029 ||
  c.toNat = 0x202F || c.toNat = 0x205F || c.toNat = 0x3000

/-- The literal class `[0-9]` used by the receipt-number and amount patterns. -/
def isAsciiDigit (c : Char) : Bool := inRange 0x30 0x39 c

/-- Python `\d` for str patterns: any Unicode decimal digit (category Nd).
The ranges below are the complete Nd table of the Unicode data Python's
`re` consults (ASCII first, so the common case short-circuits). -/
def isDigitU (c : Char) : Bool :=
  inRange 0x30 0x39 c || inRange 0x660 0x669 c || inRange 0x6F0 0x6F9 c ||
  inRange 0x7C0 0x7C9 c || inRange 0x966 0x96F c || inRange 0x9E6 0x9EF c ||
  inRange 0xA66 0xA6F c || inRange 0xAE6 0xAEF c || inRange 0xB66 0xB6F c ||
  inRange 0xBE6 0xBEF c || inRange 0xC66 0xC6F c || inRange 0xCE6 0xCEF c ||
  inRange 0xD66 0xD6F c || inRange 0xDE6 0xDEF c || inRange 0xE50 0xE59 c ||
  inRange 0xED0 0xED9 c || inRange 0xF20 0xF29 c || inRange 0x1040 0x1049 c ||
  inRange 0x1090 0x1099 c || inRange 0x17E0 0x17E9 c || inRange 0x1810 0x1819 c ||
  inRange 0x1946 0x194F c || inRange 0x19D0 0x19D9 c || inRange 0x1A80 0x1A89 c ||
  inRange 0x1A90 0x1A99 c || inRange 0x1B50 0x1B59 c || inRange 0x1BB0 0x1BB9 c ||
  inRange 0x1C40 0x1C49 c || inRange 0x1C50 0x1C59 c || inRange 0xA620 0xA629 c ||
  inRange 0xA8D0 0xA8D9 c || inRange 0xA900 0xA909 c || inRange 0xA9D0 0xA9D9 c ||
  inRange 0xA9F0 0xA9F9 c || inRange 0xAA50 0xAA59 c || inRange 0xABF0 0xABF9 c ||
  inRange 0xFF10 0xFF19 c || inRange 0x104A0 0x104A9 c || inRange 0x10D30 0x10D39 c ||
  inRange 0x11066 0x1106F c || inRange 0x110F0 0x110F9 c || inRange 0x11136 0x1113F c ||
  inRange 0x111D0 0x111D9 c || inRange 0x112F0 0x112F9 c || inRange 0x11450 0x11459 c ||
  inRange 0x114D0 0x114D9 c || inRange 0x11650 0x11659 c || inRange 0x116C0 0x116C9 c ||
  inRange 0x11730 0x11739 c || inRange 0x118E0 0x118E9 c || inRange 0x11950 0x11959 c ||
  inRange 0x11C50 0x11C59 c || inRange 0x11D50 0x11D59 c || inRange 0x11DA0 0x11DA9 c ||
  inRange 0x16A60 0x16A69 c || inRange 0x16AC0 0x16AC9 c || inRange 0x16B50 0x16B59 c ||
  inRange 0x1D7CE 0x1D7FF c || inRange 0x1E140 0x1E149 c || inRange 0x1E2F0 0x1E2F9 c ||
  inRange 0x1E950 0x1E959 c || inRange 0x1FBF0 0x1FBF9 c

/-- CJK unified ideographs `一-龥` (U+4E00..U+9FA5). -/
def isKanji (c : Char) : Bool := inRange 0x4E00 0x9FA5 c

/-- Hiragana `ぁ-ん` (U+3041..U+3093). -/
def isHiragana (c : Char) : Bool := inRange 0x3041 0x3093 c

/-- Katakana `ァ-ヶ` (U+30A1..U+30F6). -/
def isKatakana (c : Char) : Bool := inRange 0x30A1 0x30F6 c

/-- The name class `[一-龥々ぁ-んァ-ヶ]` of the payee (領収者) pattern. -/
def isNameClass (c : Char) : Bool :=
  isKanji c || c = '々' || isHiragana c || isKatakana c

/-- The addressee (宛名) class `[一-龥々ぁ-んァ-ヶ\s]` (name class plus whitespace). -/
def isAtenaClass (c : Char) : Bool := isNameClass c || isPyWs c

/-- The honorific suffix class `[様殿]` of the addressee pattern. -/
def honorific (c : Char) : Bool := c = '様' || c = '殿'

/-- The token class `[a-zA-Z0-9._\-]` of the tabular username regex. -/
def isTokenChar (c : Char) : Bool :=
  inRange 0x61 0x7A c || inRange 0x41 0x5A c || isAsciiDigit c ||
  c = '.' || c = '_' || c = '-'

/-- The class `[0-9,]` of the amount pattern. -/
def isAmountChar (c : Char) : Bool := isAsciiDigit c || c = ','

/-- The class `[：\s]` of the payee pattern's separator. -/
def isRyoshuSep (c : Char) : Bool := c = '：' || isPyWs c

/-- Negation of the newline character: the class matched by `.` without DOTALL. -/
def notNL (c : Char) : Bool := !(c = '\n')

/-! ### Python string helpers -/

/-- Python `str.strip()` on a list of code points. -/
def pyStripL (l : List Char) : List Char :=
  ((l.dropWhile isPyWs).reverse.dropWhile isPyWs).reverse

/-- Python `str.strip()`. -/
def pyStrip (s : String) : String := String.mk (pyStripL s.data)

/-- Python substring containment `needle in hay`. -/
def containsSub (needle : List Char) : List Char → Bool
  | [] => needle.isEmpty
  | c :: t => needle.isPrefixOf (c :: t) || containsSub needle t

/-! ### Parser primitives

A matcher consumes a prefix of its input and yields the consumed prefix
together with the text of capture group 1.  The primitives below each
consume one syntactic piece of a regex and return `(consumed, rest)`. -/

/-- The type of a compiled pattern: at a given suffix of the text, either no
match anchored there, or the consumed prefix together with group 1. -/
def Matcher : Type := List Char → Option (List Char × List Char)

/-- Match one fixed character. -/
def pChar (a : Char) : List Char → Option (List Char × List Char)
  | [] => none
  | c :: rest => if c = a then some ([c], rest) else none

/-- Match one character from a finite set (a small regex character class). -/
def pCharIn (s : List Char) : List Char → Option (List Char × List Char)
  | [] => none
  | c :: rest => if c ∈ s then some ([c], rest) else none

/-- Greedy `p*` where the following pattern piece cannot match a `p` character:
no backtracking can ever give back characters, so the maximal run is taken. -/
def pStar (p : Char → Bool) (l : List Char) : List Char × List Char :=
  (l.takeWhile p, l.dropWhile p)

/-- Greedy `p+` under the same disjointness condition as `pStar`. -/
def pPlus (p : Char → Bool) (l : List Char) : Option (List Char × List Char) :=
  match l.takeWhile p with
  | [] => none
  | c :: cs => some (c :: cs, l.dropWhile p)

/-- Match exactly `n` characters of class `p` (regex `p{n}`). -/
def pExact : Nat → (Char → Bool) → List Char → Option (List Char × List Char)
  | 0, _, l => some ([], l)
  | _ + 1, _, [] => none
  | n + 1, p, c :: rest =>
    if p c then
      match pExact n p rest with
      | none => none
      | some (cs, r) => some (c :: cs, r)
    else none

/-- Match a fixed literal string. -/
def pLits (cs : List Char) (l : List Char) : Option (List Char × List Char) :=
  if cs.isPrefixOf l then some (cs, l.drop cs.length) else none

/-- Greedy `\d{1,2}` immediately followed by a literal.  Since a digit never
equals the literal, Python's backtracking accepts exactly a run of one or two
digits followed by the literal, and fails on a run of three or more. -/
def pD12 (lit : Char) (l : List Char) : Option (List Char × List Char) :=
  match l.takeWhile isDigitU, l.dropWhile isDigitU with
  | [d], c :: rest => if c = lit then some ([d, c], rest) else none
  | [d, e], c :: rest => if c = lit then some ([d, e, c], rest) else none
  | _, _ => none

/-! ### The six field patterns of analyze_text (source lines 100-107) -/

/-- Label 領収書番号. -/
def receiptLabel : List Char := ['領', '収', '書', '番', '号']

/-- The separator class `[：:]`. -/
def sepColon : List Char := ['：', ':']

/-- The issue-date label class `[行⾏]` (U+884C and the OCR-confusable Kangxi
radical U+2F8F). -/
def gyoChars : List Char := ['行', '⾏']

/-- Pattern `領収書番号[：:]\s*([0-9]+)`. -/
def matchReceiptNo : Matcher := fun l =>
  match pLits receiptLabel l with
  | none => none
  | some (c1, l1) =>
  match pCharIn sepColon l1 with
  | none => none
  | some (c2, l2) =>
  let ws := (pStar isPyWs l2).1
  match pPlus isAsciiDigit (pStar isPyWs l2).2 with
  | none => none
  | some (ds, _) => some (c1 ++ c2 ++ ws ++ ds, ds)

/-- Pattern `発[行⾏]日[：:]\s*(\d{4}年\d{1,2}月\d{1,2}日)`. -/
def matchIssueDate : Matcher := fun l =>
  match pChar '発' l with
  | none => none
  | some (c1, l1) =>
  match pCharIn gyoChars l1 with
  | none => none
  | some (c2, l2) =>
  match pChar '日' l2 with
  | none => none
  | some (c3, l3) =>
  match pCharIn sepColon l3 with
  | none => none
  | some (c4, l4) =>
  let ws := (pStar isPyWs l4).1
  match pExact 4 isDigitU (pStar isPyWs l4).2 with
  | none => none
  | some (y4, l6) =>
  match pChar '年' l6 with
  | none => none
  | some (cy, l7) =>
  match pD12 '月' l7 with
  | none => none
  | some (mo, l8) =>
  match pD12 '日' l8 with
  | none => none
  | some (dd, _) =>
    some (c1 ++ c2 ++ c3 ++ c4 ++ ws ++ (y4 ++ cy ++ mo ++ dd), y4 ++ cy ++ mo ++ dd)

/-- Backtracking search for the addressee pattern: the largest `j ≥ 1` not
above the given bound such that the character at index `j` is an honorific;
greedy `{1,20}` tries the longest group first. -/
def atenaK (l : List Char) : Nat → Option Nat
  | 0 => none
  | k + 1 =>
    match l.get? (k + 1) with
    | some c => if honorific c then some (k + 1) else atenaK l k
    | none => atenaK l k

/-- Pattern `([一-龥々ぁ-んァ-ヶ\s]{1,20})[様殿]`.  The honorifics themselves lie
inside the CJK class, so the greedy group backtracks from the longest
available run (capped at 20) until the next character is an honorific. -/
def matchAtena : Matcher := fun l =>
  match atenaK l (min (l.takeWhile isAtenaClass).length 20) with
  | some j => some (l.take (j + 1), l.take j)
  | none => none

/-- Label 領収者. -/
def ryoshuLabel : List Char := ['領', '収', '者']

/-- Pattern `領収者[：\s]*([一-龥々ぁ-んァ-ヶ]{1,20})`. -/
def matchRyoshusha : Matcher := fun l =>
  match pLits ryoshuLabel l with
  | none => none
  | some (c1, l1) =>
  let sep := (pStar isRyoshuSep l1).1
  match ((pStar isRyoshuSep l1).2).takeWhile isNameClass with
  | [] => none
  | c :: cs =>
    let g := (c :: cs).take 20
    some (c1 ++ sep ++ g, g)

/-- Pattern `[￥¥]\s*([0-9,]+)` (fullwidth U+FFE5 or halfwidth U+00A5 yen). -/
def matchAmount : Matcher := fun l =>
  match pCharIn ['￥', '¥'] l with
  | none => none
  | some (c1, l1) =>
  let ws := (pStar isPyWs l1).1
  match pPlus isAmountChar (pStar isPyWs l1).2 with
  | none => none
  | some (ds, _) => some (c1 ++ ws ++ ds, ds)

/-- Label 案件名. -/
def ankenLabel : List Char := ['案', '件', '名']

/-- Backtracking split between `\s*` and `(.+)` in the project-name pattern:
the largest `j` not above the whitespace-run length such that a character
exists at index `j` and is not a newline (`.` needs one non-newline char). -/
def ankenJ (l : List Char) : Nat → Option Nat
  | 0 =>
    match l.get? 0 with
    | some c => if notNL c then some 0 else none
    | none => none
  | k + 1 =>
    match l.get? (k + 1) with
    | some c => if notNL c then some (k + 1) else ankenJ l k
    | none => ankenJ l k

/-- Pattern `案件名[：:]\s*(.+)`.  `\s*` also eats newlines, and gives back
trailing whitespace only when `(.+)` would otherwise see end-of-input. -/
def matchAnken : Matcher := fun l =>
  match pLits ankenLabel l with
  | none => none
  | some (c1, l1) =>
  match pCharIn sepColon l1 with
  | none => none
  | some (c2, l2) =>
  match ankenJ l2 (l2.takeWhile isPyWs).length with
  | none => none
  | some j =>
    let g := (l2.drop j).takeWhile notNL
    some (c1 ++ c2 ++ (l2.take j ++ g), g)

/-! ### finditer: scan for all non-overlapping matches -/

/-- One element of a `MatchTable` entry, modelling the dict
`{matched_text, captured_group, position}` built in `analyze_text`;
`start`/`stop` are the half-open span `m.span()`. -/
structure PMatch where
  matched_text : List Char
  captured_group : List Char
  start : Nat
  stop : Nat
deriving DecidableEq, Repr

/-- `re.finditer` scan: try the matcher at each position left to right and,
after a match, resume at its end (non-overlapping).  Fuel is the length of
the remaining text. -/
def scanAux (M : Matcher) : Nat → Nat → List Char → List PMatch
  | 0, _, _ => []
  | _ + 1, _, [] => []
  | fuel + 1, pos, c :: rest =>
    match M (c :: rest) with
    | none => scanAux M fuel (pos + 1) rest
    | some (con, g) =>
      { matched_text := con, captured_group := g, start := pos, stop := pos + con.length }
        :: scanAux M fuel (pos + con.length) ((c :: rest).drop (max con.length 1))

/-- All non-overlapping matches of a pattern, left to right. -/
def findAll (M : Matcher) (l : List Char) : List PMatch := scanAux M l.length 0 l

/-! ### analyze_text (source lines 89-119) -/

/-- The fixed enumeration of semantic field labels (the keys of the Python
`patterns` dict, in source order). -/
inductive PatternLabel where
  | receiptNo   -- 領収書番号
  | issueDate   -- 発行日
  | atena       -- 宛名
  | ryoshusha   -- 領収者
  | amount      -- 金額
  | anken       -- 案件名
deriving DecidableEq, Repr

/-- The compiled pattern associated with each label. -/
def matcherOf : PatternLabel → Matcher
  | .receiptNo => matchReceiptNo
  | .issueDate => matchIssueDate
  | .atena => matchAtena
  | .ryoshusha => matchRyoshusha
  | .amount => matchAmount
  | .anken => matchAnken

/-- The `patterns_found` dict: one entry per label, each an ordered list of
matches. -/
structure MatchTable where
  receiptNo : List PMatch
  issueDate : List PMatch
  atena : List PMatch
  ryoshusha : List PMatch
  amount : List PMatch
  anken : List PMatch
deriving DecidableEq, Repr

/-- Dict lookup `patterns_found[label]`. -/
def tableEntry (t : MatchTable) : PatternLabel → List PMatch
  | .receiptNo => t.receiptNo
  | .issueDate => t.issueDate
  | .atena => t.atena
  | .ryoshusha => t.ryoshusha
  | .amount => t.amount
  | .anken => t.anken

/-- The analysis dict returned by `analyze_text`. -/
structure Analysis where
  total_length : Nat
  line_count : Nat
  patterns_found : MatchTable
deriving DecidableEq, Repr

/-- `analyze_text` (source lines 89-119): length, line count, and all
non-overlapping matches of each of the six patterns. -/
def analyze_text (text : String) : Analysis :=
  { total_length := text.length
    line_count := text.data.count '\n' + 1
    patterns_found :=
      { receiptNo := findAll matchReceiptNo text.data
        issueDate := findAll matchIssueDate text.data
        atena := findAll matchAtena text.data
        ryoshusha := findAll matchRyoshusha text.data
        amount := findAll matchAmount text.data
        anken := findAll matchAnken text.data } }

/-! ### The tabular username regex (source line 140)

`re.search(r'品名\s+相⼿先\s+数量.*?\n.*?\s+([a-zA-Z0-9._\-]+)\s+\d+\s+個', text,
re.DOTALL)`.  Under DOTALL the lazy `.*?\n` selects the first newline after
the header (later newlines are retried only after every continuation fails,
and each later newline's continuations are a subset of the first one's), and
the lazy second `.*?` then slides the row pattern right until it fits. -/

/-- Header literal 品名. -/
def shinaChars : List Char := ['品', '名']

/-- Header literal 相⼿先 (with the Kangxi radical U+2F3F, not 手). -/
def aiteChars : List Char := ['相', '⼿', '先']

/-- Header literal 数量. -/
def suryoChars : List Char := ['数', '量']

/-- The row tail `\s+([a-zA-Z0-9._\-]+)\s+\d+\s+個` anchored at a position;
all its quantifier boundaries are between disjoint classes, so each run is
maximal and no backtracking arises. -/
def rowAt (l : List Char) : Option (List Char) :=
  match pPlus isPyWs l with
  | none => none
  | some (_, l1) =>
  match pPlus isTokenChar l1 with
  | none => none
  | some (tok, l2) =>
  match pPlus isPyWs l2 with
  | none => none
  | some (_, l3) =>
  match pPlus isDigitU l3 with
  | none => none
  | some (_, l4) =>
  match pPlus isPyWs l4 with
  | none => none
  | some (_, l5) =>
  match pChar '個' l5 with
  | none => none
  | some _ => some tok

/-- `re.search` position scan: try at every suffix, leftmost success wins. -/
def searchFrom (f : List Char → Option (List Char)) : List Char → Option (List Char)
  | [] => none
  | c :: rest =>
    match f (c :: rest) with
    | some r => some r
    | none => searchFrom f rest

/-- The whole tabular pattern anchored at a position: header, then skip to
just past the first newline, then find the leftmost row match. -/
def tabularAt (l : List Char) : Option (List Char) :=
  match pLits shinaChars l with
  | none => none
  | some (_, l1) =>
  match pPlus isPyWs l1 with
  | none => none
  | some (_, l2) =>
  match pLits aiteChars l2 with
  | none => none
  | some (_, l3) =>
  match pPlus isPyWs l3 with
  | none => none
  | some (_, l4) =>
  match pLits suryoChars l4 with
  | none => none
  | some (_, l5) =>
  match l5.dropWhile notNL with
  | [] => none
  | _ :: l6 => searchFrom rowAt l6

/-- `re.search` of the tabular username regex over the whole text. -/
def searchTabular (l : List Char) : Option (List Char) := searchFrom tabularAt l

/-! ### The classifier cascade (source lines 121-177) -/

/-- The line prefix `'案件名：'` tested by `line.startswith` (source line 130);
fullwidth colon only. -/
def ankenPreL : List Char := ['案', '件', '名', '：']

/-- The additional-payment marker `'追加支払い'`. -/
def tsuika : String := "追加支払い"

/-- Python `str.split` at newlines on code points: `''` gives `['']`, and a
trailing newline yields a trailing empty segment, as in Python. -/
def splitNL : List Char → List (List Char)
  | [] => [[]]
  | c :: t =>
    if c = '\n' then [] :: splitNL t
    else
      match splitNL t with
      | [] => [[c]]
      | h :: rest => (c :: h) :: rest

/-- The line-following heuristic (source lines 126-133): split into lines,
find the first non-last line starting with `案件名：`, and return the next
line stripped (Python `str.strip()`, both sides). -/
def lineFollowing (text : String) : Option String :=
  let lines := splitNL text.data
  match lines.dropLast.findIdx? (fun l => ankenPreL.isPrefixOf l) with
  | some i => some (String.mk (pyStripL (lines.getD (i + 1) [])))
  | none => none

/-- `extract_username` (source lines 121-153) with the match table passed
explicitly; the Python code recomputes it via `analyze_text` but reads only
its 領収者 entry. -/
def usernameFromTable (text : String) (tbl : MatchTable) : String :=
  match lineFollowing text with
  | some u => u
  | none =>
    match searchTabular text.data with
    | some tok => pyStrip (String.mk tok)
    | none =>
      match tbl.ryoshusha with
      | m :: _ => String.mk m.captured_group
      | [] => "unknown_user"

/-- `extract_username` (source lines 121-153). -/
def extract_username (text : String) : String :=
  usernameFromTable text (analyze_text text).patterns_found

/-- `extract_project_type` (source lines 155-177) with the match table passed
explicitly; it reads only the 案件名 entry and the raw text. -/
def projectTypeFromTable (text : String) (tbl : MatchTable) : String :=
  match tbl.anken with
  | m :: _ =>
    if containsSub tsuika.data m.captured_group then "additional" else "basic"
  | [] =>
    if containsSub tsuika.data text.data then "additional" else "basic"

/-- `extract_project_type` (source lines 155-177). -/
def extract_project_type (text : String) : String :=
  projectTypeFromTable text (analyze_text text).patterns_found

/-- The `(project_type, username)` pair produced by the core for one document
(spec name `ClassificationResult`). -/
structure ClassificationResult where
  project_type : String
  username : String
deriving DecidableEq, Repr

/-- The whole classification core: both cascades on one text, as invoked by
`organize_pdfs` (source lines 270-271). -/
def classify (text : String) : ClassificationResult :=
  { project_type := extract_project_type text, username := extract_username text }

/-! ### Logging-aware variants (diagnostic side channel of lines 132-176)

Each `logging.debug`/`logging.warning` call is modelled as the formatted
message appended to an explicit log; the first component is the value the
Python function returns. -/

/-- `extract_username` together with the diagnostic message its taken branch
logs. -/
def extract_username_log (text : String) : String × List String :=
  match lineFollowing text with
  | some u => (u, ["案件名の次の行からユーザー名を検出: " ++ u])
  | none =>
    match searchTabular text.data with
    | some tok =>
      let u := pyStrip (String.mk tok)
      (u, ["表形式からユーザー名を検出: " ++ u])
    | none =>
      match (analyze_text text).patterns_found.ryoshusha with
      | m :: _ =>
        let u := String.mk m.captured_group
        (u, ["領収者パターンからユーザー名を検出: " ++ u])
      | [] =>
        ("unknown_user",
         ["ユーザー名を検出できませんでした。テキストサンプル: " ++ String.mk (text.data.take 200)])

/-- `extract_project_type` together with the diagnostic message its taken
branch logs. -/
def extract_project_type_log (text : String) : String × List String :=
  match (analyze_text text).patterns_found.anken with
  | m :: _ =>
    if containsSub tsuika.data m.captured_group then
      ("additional", ["追加支払い案件を検出: " ++ String.mk m.captured_group])
    else
      ("basic", ["基本案件を検出: " ++ String.mk m.captured_group])
  | [] =>
    if containsSub tsuika.data text.data then
      ("additional", ["表形式から追加支払い案件を検出"])
    else
      ("basic", ["基本案件として判定"])

/-! ### Decomposition lemmas for the parser primitives -/

theorem pChar_eq {a : Char} {l c r : List Char} (h : pChar a l = some (c, r)) :
    c = [a] ∧ l = c ++ r := by
  match l with
  | [] => simp [pChar] at h
  | x :: t =>
    simp only [pChar] at h
    split at h
    · rename_i hx
      simp only [Option.some.injEq, Prod.mk.injEq] at h
      obtain ⟨hc, hr⟩ := h
      subst hx; subst hc; subst hr
      exact ⟨rfl, rfl⟩
    · exact absurd h (by simp)

theorem pCharIn_eq {s : List Char} {l c r : List Char} (h : pCharIn s l = some (c, r)) :
    ∃ x, x ∈ s ∧ c = [x] ∧ l = c ++ r := by
  match l with
  | [] => simp [pCharIn] at h
  | x :: t =>
    simp only [pCharIn] at h
    split at h
    · rename_i hx
      simp only [Option.some.injEq, Prod.mk.injEq] at h
      obtain ⟨hc, hr⟩ := h
      subst hc; subst hr
      exact ⟨x, hx, rfl, rfl⟩
    · exact absurd h (by simp)

theorem pStar_eq (p : Char → Bool) (l : List Char) :
    (pStar p l).1 ++ (pStar p l).2 = l ∧ ∀ x ∈ (pStar p l).1, p x = true := by
  refine ⟨List.takeWhile_append_dropWhile p l, ?_⟩
  intro x hx
  exact List.mem_takeWhile_imp hx

theorem pPlus_eq {p : Char → Bool} {l c r : List Char} (h : pPlus p l = some (c, r)) :
    c ≠ [] ∧ l = c ++ r ∧ ∀ x ∈ c, p x = true := by
  simp only [pPlus] at h
  split at h
  · exact absurd h (by simp)
  · rename_i d ds htw
    simp only [Option.some.injEq, Prod.mk.injEq] at h
    obtain ⟨hc, hr⟩ := h
    subst hr
    refine ⟨by rw [← hc]; simp, ?_, ?_⟩
    · rw [← hc]
      have hx := List.takeWhile_append_dropWhile p l
      rw [htw] at hx
      exact hx.symm
    · intro x hx
      rw [← hc] at hx
      exact List.mem_takeWhile_imp (htw.symm ▸ hx)

theorem pExact_eq : ∀ {n : Nat} {p : Char → Bool} {l c r : List Char},
    pExact n p l = some (c, r) →
    c.length = n ∧ l = c ++ r ∧ ∀ x ∈ c, p x = true := by
  intro n
  induction n with
  | zero =>
    intro p l c r h
    simp only [pExact, Option.some.injEq, Prod.mk.injEq] at h
    obtain ⟨hc, hr⟩ := h
    subst hr; subst hc
    simp
  | succ n ih =>
    intro p l c r h
    match l with
    | [] => simp [pExact] at h
    | x :: t =>
      simp only [pExact] at h
      split at h
      · rename_i hx
        cases hrec : pExact n p t with
        | none => rw [hrec] at h; exact absurd h (by simp)
        | some pr =>
          obtain ⟨cs, rr⟩ := pr
          rw [hrec] at h
          simp only [Option.some.injEq, Prod.mk.injEq] at h
          obtain ⟨hc, hr⟩ := h
          subst hr; subst hc
          obtain ⟨h1, h2, h3⟩ := ih hrec
          refine ⟨by simp [h1], by simp [h2], ?_⟩
          intro y hy
          rcases List.mem_cons.mp hy with hy | hy
          · subst hy; exact hx
          · exact h3 y hy
      · exact absurd h (by simp)

theorem pLits_eq {cs l c r : List Char} (h : pLits cs l = some (c, r)) :
    c = cs ∧ l = c ++ r := by
  simp only [pLits] at h
  split at h
  · rename_i hpre
    simp only [Option.some.injEq, Prod.mk.injEq] at h
    obtain ⟨hc, hr⟩ := h
    subst hc; subst hr
    obtain ⟨t, ht⟩ := List.isPrefixOf_iff_prefix.mp hpre
    refine ⟨rfl, ?_⟩
    conv_lhs => rw [← ht]
    rw [← ht, List.drop_left]
  · exact absurd h (by simp)

theorem pD12_eq {lit : Char} {l c r : List Char} (h : pD12 lit l = some (c, r)) :
    l = c ++ r ∧ ∃ ds, c = ds ++ [lit] ∧ ds ≠ [] ∧ ∀ x ∈ ds, isDigitU x = true := by
  simp only [pD12] at h
  split at h
  · rename_i d cc rest htw hdw
    split at h
    · rename_i hlit
      subst hlit
      simp only [Option.some.injEq, Prod.mk.injEq] at h
      obtain ⟨hc, hr⟩ := h
      subst hc; subst hr
      constructor
      · have hx := List.takeWhile_append_dropWhile isDigitU l
        rw [htw, hdw] at hx
        simpa using hx.symm
      · refine ⟨[d], rfl, by simp, ?_⟩
        intro x hx
        have hm : x ∈ l.takeWhile isDigitU := by rw [htw]; simpa using hx
        exact List.mem_takeWhile_imp hm
    · exact absurd h (by simp)
  · rename_i d e cc rest htw hdw
    split at h
    · rename_i hlit
      subst hlit
      simp only [Option.some.injEq, Prod.mk.injEq] at h
      obtain ⟨hc, hr⟩ := h
      subst hc; subst hr
      constructor
      · have hx := List.takeWhile_append_dropWhile isDigitU l
        rw [htw, hdw] at hx
        simpa using hx.symm
      · refine ⟨[d, e], rfl, by simp, ?_⟩
        intro x hx
        have hm : x ∈ l.takeWhile isDigitU := by rw [htw]; simpa using hx
        exact List.mem_takeWhile_imp hm
    · exact absurd h (by simp)
  · exact absurd h (by simp)

theorem atenaK_eq {l : List Char} : ∀ {k j : Nat}, atenaK l k = some j →
    1 ≤ j ∧ ∃ ch, l.get? j = some ch ∧ honorific ch = true := by
  intro k
  induction k with
  | zero => intro j h; simp [atenaK] at h
  | succ k ih =>
    intro j h
    simp only [atenaK] at h
    split at h
    · rename_i ch hch
      split at h
      · rename_i hh
        injection h with h'
        subst h'
        exact ⟨Nat.le_add_left 1 k, ch, hch, hh⟩
      · exact ih h
    · exact ih h

theorem ankenJ_eq {l : List Char} : ∀ {k j : Nat}, ankenJ l k = some j →
    ∃ ch, l.get? j = some ch ∧ notNL ch = true := by
  intro k
  induction k with
  | zero =>
    intro j h
    simp only [ankenJ] at h
    split at h
    · rename_i ch hch
      split at h
      · rename_i hh
        injection h with h'
        subst h'
        exact ⟨ch, hch, hh⟩
      · exact absurd h (by simp)
    · exact absurd h (by simp)
  | succ k ih =>
    intro j h
    simp only [ankenJ] at h
    split at h
    · rename_i ch hch
      split at h
      · rename_i hh
        injection h with h'
        subst h'
        exact ⟨ch, hch, hh⟩
      · exact ih h
    · exact ih h

/-! ### Soundness of the six matchers: a match consumes a nonempty prefix -/

/-- A matcher is sound when every reported match is a nonempty prefix of the
input it was anchored at. -/
def MSound (M : Matcher) : Prop :=
  ∀ l c g, M l = some (c, g) → c ≠ [] ∧ ∃ r, l = c ++ r

theorem matchReceiptNo_sound : MSound matchReceiptNo := by
  intro l c g h
  simp only [matchReceiptNo] at h
  split at h
  · exact absurd h (by simp)
  · rename_i c1 l1 h1
    split at h
    · exact absurd h (by simp)
    · rename_i c2 l2 h2
      split at h
      · exact absurd h (by simp)
      · rename_i ds r3 h3
        simp only [Option.some.injEq, Prod.mk.injEq] at h
        obtain ⟨hc, -⟩ := h
        obtain ⟨hc1, hl1⟩ := pLits_eq h1
        obtain ⟨x, -, hc2, hl2⟩ := pCharIn_eq h2
        obtain ⟨-, hl3, -⟩ := pPlus_eq h3
        have hsp := (pStar_eq isPyWs l2).1
        subst hc
        refine ⟨by simp [hc1, receiptLabel], r3, ?_⟩
        conv_lhs => rw [hl1, hl2, ← hsp, hl3]
        simp [List.append_assoc]

theorem matchIssueDate_sound : MSound matchIssueDate := by
  intro l c g h
  simp only [matchIssueDate] at h
  split at h
  · exact absurd h (by simp)
  · rename_i c1 l1 h1
    split at h
    · exact absurd h (by simp)
    · rename_i c2 l2 h2
      split at h
      · exact absurd h (by simp)
      · rename_i c3 l3 h3
        split at h
        · exact absurd h (by simp)
        · rename_i c4 l4 h4
          split at h
          · exact absurd h (by simp)
          · rename_i y4 l6 h5
            split at h
            · exact absurd h (by simp)
            · rename_i cy l7 h6
              split at h
              · exact absurd h (by simp)
              · rename_i mo l8 h7
                split at h
                · exact absurd h (by simp)
                · rename_i dd r8 h8
                  simp only [Option.some.injEq, Prod.mk.injEq] at h
                  obtain ⟨hc, -⟩ := h
                  obtain ⟨hc1, hl1⟩ := pChar_eq h1
                  obtain ⟨x2, -, hc2, hl2⟩ := pCharIn_eq h2
                  obtain ⟨hc3, hl3⟩ := pChar_eq h3
                  obtain ⟨x4, -, hc4, hl4⟩ := pCharIn_eq h4
                  obtain ⟨-, hl5, -⟩ := pExact_eq h5
                  obtain ⟨hcy, hl6⟩ := pChar_eq h6
                  obtain ⟨hl7, -⟩ := pD12_eq h7
                  obtain ⟨hl8, -⟩ := pD12_eq h8
                  have hsp := (pStar_eq isPyWs l4).1
                  subst hc
                  refine ⟨by simp [hc1], r8, ?_⟩
                  conv_lhs => rw [hl1, hl2, hl3, hl4, ← hsp, hl5, hl6, hl7, hl8]
                  simp [List.append_assoc]

theorem matchAtena_sound : MSound matchAtena := by
  intro l c g h
  simp only [matchAtena] at h
  split at h
  · rename_i j hj
    simp only [Option.some.injEq, Prod.mk.injEq] at h
    obtain ⟨hc, -⟩ := h
    obtain ⟨-, ch, hget, -⟩ := atenaK_eq hj
    obtain ⟨hjlt, -⟩ := List.get?_eq_some.mp hget
    subst hc
    constructor
    · have : (l.take (j + 1)).length = j + 1 := by
        rw [List.length_take]
        omega
      intro hnil
      rw [hnil] at this
      simp at this
    · exact ⟨l.drop (j + 1), (List.take_append_drop (j + 1) l).symm⟩
  · exact absurd h (by simp)

theorem matchRyoshusha_sound : MSound matchRyoshusha := by
  intro l c g h
  simp only [matchRyoshusha] at h
  split at h
  · exact absurd h (by simp)
  · rename_i c1 l1 h1
    split at h
    · exact absurd h (by simp)
    · rename_i d ds htw
      simp only [Option.some.injEq, Prod.mk.injEq] at h
      obtain ⟨hc, -⟩ := h
      obtain ⟨hc1, hl1⟩ := pLits_eq h1
      have hsp := (pStar_eq isRyoshuSep l1).1
      subst hc
      refine ⟨by simp [hc1, ryoshuLabel], ?_⟩
      have hrun : (d :: ds).take 20 ++ (d :: ds).drop 20 = d :: ds :=
        List.take_append_drop 20 (d :: ds)
      have hl2 : ((pStar isRyoshuSep l1).2).takeWhile isNameClass ++
          ((pStar isRyoshuSep l1).2).dropWhile isNameClass = (pStar isRyoshuSep l1).2 :=
        List.takeWhile_append_dropWhile isNameClass _
      rw [htw] at hl2
      refine ⟨(d :: ds).drop 20 ++ ((pStar isRyoshuSep l1).2).dropWhile isNameClass, ?_⟩
      conv_lhs => rw [hl1, ← hsp, ← hl2, ← hrun]
      simp only [List.append_assoc, List.cons_append, List.nil_append,
        List.take_succ_cons, List.drop_succ_cons, List.take_zero, List.drop_zero]

theorem matchAmount_sound : MSound matchAmount := by
  intro l c g h
  simp only [matchAmount] at h
  split at h
  · exact absurd h (by simp)
  · rename_i c1 l1 h1
    split at h
    · exact absurd h (by simp)
    · rename_i ds r2 h2
      simp only [Option.some.injEq, Prod.mk.injEq] at h
      obtain ⟨hc, -⟩ := h
      obtain ⟨x, -, hc1, hl1⟩ := pCharIn_eq h1
      obtain ⟨-, hl2, -⟩ := pPlus_eq h2
      have hsp := (pStar_eq isPyWs l1).1
      subst hc
      refine ⟨by simp [hc1], r2, ?_⟩
      conv_lhs => rw [hl1, ← hsp, hl2]
      simp [List.append_assoc]

theorem matchAnken_sound : MSound matchAnken := by
  intro l c g h
  simp only [matchAnken] at h
  split at h
  · exact absurd h (by simp)
  · rename_i c1 l1 h1
    split at h
    · exact absurd h (by simp)
    · rename_i c2 l2 h2
      split at h
      · exact absurd h (by simp)
      · rename_i j hj
        simp only [Option.some.injEq, Prod.mk.injEq] at h
        obtain ⟨hc, -⟩ := h
        obtain ⟨hc1, hl1⟩ := pLits_eq h1
        obtain ⟨x, -, hc2, hl2⟩ := pCharIn_eq h2
        subst hc
        refine ⟨by simp [hc1, ankenLabel], ?_⟩
        refine ⟨((l2.drop j).dropWhile notNL), ?_⟩
        have hsplit : l2.take j ++ l2.drop j = l2 := List.take_append_drop j l2
        have htw : (l2.drop j).takeWhile notNL ++ (l2.drop j).dropWhile notNL = l2.drop j :=
          List.takeWhile_append_dropWhile notNL _
        conv_lhs => rw [hl1, hl2, ← hsplit, ← htw]
        simp [List.append_assoc]

theorem matcherOf_sound : ∀ lab : PatternLabel, MSound (matcherOf lab)
  | .receiptNo => matchReceiptNo_sound
  | .issueDate => matchIssueDate_sound
  | .atena => matchAtena_sound
  | .ryoshusha => matchRyoshusha_sound
  | .amount => matchAmount_sound
  | .anken => matchAnken_sound

/-! ### Properties of the finditer scan -/

/-- Every reported match is a real anchored match of the pattern at its
recorded start position, and its span length is the consumed length. -/
theorem scanAux_mem {M : Matcher} (hM : MSound M) :
    ∀ (fuel pos : Nat) (l : List Char), l.length ≤ fuel →
      ∀ m ∈ scanAux M fuel pos l,
        ∃ k, m.start = pos + k ∧
          M (l.drop k) = some (m.matched_text, m.captured_group) ∧
          m.stop = m.start + m.matched_text.length := by
  intro fuel
  induction fuel with
  | zero =>
    intro pos l _ m hm
    simp [scanAux] at hm
  | succ fuel ih =>
    intro pos l hlen m hm
    cases l with
    | nil => simp [scanAux] at hm
    | cons a rest =>
      cases hM2 : M (a :: rest) with
      | none =>
        simp only [scanAux, hM2] at hm
        obtain ⟨k, h1, h2, h3⟩ := ih (pos + 1) rest (by simp at hlen; omega) m hm
        refine ⟨k + 1, by omega, ?_, h3⟩
        rw [List.drop_succ_cons]
        exact h2
      | some pr =>
        obtain ⟨con, g0⟩ := pr
        obtain ⟨hne, r, hr⟩ := hM _ _ _ hM2
        have hcl : 1 ≤ con.length := List.length_pos.mpr hne
        simp only [scanAux, hM2] at hm
        rcases List.mem_cons.mp hm with rfl | hm'
        · exact ⟨0, by simp, by simpa using hM2, rfl⟩
        · rw [Nat.max_eq_left hcl] at hm'
          have hdl : ((a :: rest).drop con.length).length ≤ fuel := by
            rw [List.length_drop]
            simp at hlen ⊢
            omega
          obtain ⟨k', h1, h2, h3⟩ := ih (pos + con.length) _ hdl m hm'
          refine ⟨con.length + k', by omega, ?_, h3⟩
          rw [List.drop_drop] at h2
          exact h2

/-- Completeness of the scan: any position where the pattern matches is
covered by some reported match (the scan finds all non-overlapping
occurrences, left to right). -/
theorem scanAux_cover {M : Matcher} (hM : MSound M) :
    ∀ (fuel pos : Nat) (l : List Char), l.length ≤ fuel →
      ∀ (k : Nat) (c g : List Char), M (l.drop k) = some (c, g) →
        ∃ m ∈ scanAux M fuel pos l, m.start ≤ pos + k ∧ pos + k < m.stop := by
  intro fuel
  induction fuel with
  | zero =>
    intro pos l hlen k c g hk
    have hnil : l = [] := List.length_eq_zero.mp (Nat.le_zero.mp hlen)
    subst hnil
    rw [List.drop_nil] at hk
    obtain ⟨hne, r, hr⟩ := hM _ _ _ hk
    exact absurd (List.append_eq_nil.mp hr.symm).1 hne
  | succ fuel ih =>
    intro pos l hlen k c g hk
    cases l with
    | nil =>
      rw [List.drop_nil] at hk
      obtain ⟨hne, r, hr⟩ := hM _ _ _ hk
      exact absurd (List.append_eq_nil.mp hr.symm).1 hne
    | cons a rest =>
      cases hM2 : M (a :: rest) with
      | none =>
        cases k with
        | zero =>
          rw [List.drop_zero, hM2] at hk
          exact absurd hk (by simp)
        | succ k =>
          rw [List.drop_succ_cons] at hk
          obtain ⟨m, hm, h1, h2⟩ := ih (pos + 1) rest (by simp at hlen; omega) k c g hk
          refine ⟨m, ?_, by omega, by omega⟩
          simp only [scanAux, hM2]
          exact hm
      | some pr =>
        obtain ⟨con, g0⟩ := pr
        obtain ⟨hne, r, hr⟩ := hM _ _ _ hM2
        have hcl : 1 ≤ con.length := List.length_pos.mpr hne
        by_cases hlt : k < con.length
        · refine ⟨⟨con, g0, pos, pos + con.length⟩, ?_, by simp, by simp; omega⟩
          simp only [scanAux, hM2]
          exact List.mem_cons_self _ _
        · push_neg at hlt
          have hdl : ((a :: rest).drop con.length).length ≤ fuel := by
            rw [List.length_drop]
            simp at hlen ⊢
            omega
          have hk' : M (((a :: rest).drop con.length).drop (k - con.length)) = some (c, g) := by
            rw [List.drop_drop]
            have hke : con.length + (k - con.length) = k := by omega
            rw [hke]
            exact hk
          obtain ⟨m, hm, h1, h2⟩ := ih (pos + con.length) _ hdl (k - con.length) c g hk'
          refine ⟨m, ?_, by omega, by omega⟩
          simp only [scanAux, hM2]
          refine List.mem_cons_of_mem _ ?_
          rw [Nat.max_eq_left hcl]
          exact hm

/-- The reported matches are non-overlapping and in left-to-right order:
each match ends no later than the next one starts. -/
theorem scanAux_chain {M : Matcher} (hM : MSound M) :
    ∀ (fuel pos : Nat) (l : List Char), l.length ≤ fuel →
      List.Chain' (fun a b => a.stop ≤ b.start) (scanAux M fuel pos l) := by
  intro fuel
  induction fuel with
  | zero => intro pos l _; simp [scanAux]
  | succ fuel ih =>
    intro pos l hlen
    cases l with
    | nil => simp [scanAux]
    | cons a rest =>
      cases hM2 : M (a :: rest) with
      | none =>
        simp only [scanAux, hM2]
        exact ih (pos + 1) rest (by simp at hlen; omega)
      | some pr =>
        obtain ⟨con, g0⟩ := pr
        obtain ⟨hne, r, hr⟩ := hM _ _ _ hM2
        have hcl : 1 ≤ con.length := List.length_pos.mpr hne
        have hdl : ((a :: rest).drop (max con.length 1)).length ≤ fuel := by
          rw [Nat.max_eq_left hcl, List.length_drop]
          simp at hlen ⊢
          omega
        simp only [scanAux, hM2]
        rw [List.chain'_cons']
        constructor
        · intro y hy
          have hym := List.mem_of_mem_head? hy
          obtain ⟨k, h1, -, -⟩ := scanAux_mem hM fuel (pos + con.length) _ hdl y hym
          show pos + con.length ≤ y.start
          omega
        · exact ih (pos + con.length) _ hdl

/-- `findAll` form of `scanAux_mem`. -/
theorem findAll_mem {M : Matcher} (hM : MSound M) {l : List Char} {m : PMatch}
    (hm : m ∈ findAll M l) :
    M (l.drop m.start) = some (m.matched_text, m.captured_group) ∧
    m.stop = m.start + m.matched_text.length := by
  obtain ⟨k, h1, h2, h3⟩ := scanAux_mem hM l.length 0 l le_rfl m hm
  have hk : k = m.start := by omega
  rw [hk] at h2
  exact ⟨h2, h3⟩

/-- `findAll` form of `scanAux_cover`. -/
theorem findAll_cover {M : Matcher} (hM : MSound M) {l : List Char} {k : Nat}
    {c g : List Char} (hk : M (l.drop k) = some (c, g)) :
    ∃ m ∈ findAll M l, m.start ≤ k ∧ k < m.stop := by
  obtain ⟨m, hm, h1, h2⟩ := scanAux_cover hM l.length 0 l le_rfl k c g hk
  exact ⟨m, hm, by omega, by omega⟩

/-- `findAll` form of `scanAux_chain`. -/
theorem findAll_chain {M : Matcher} (hM : MSound M) (l : List Char) :
    List.Chain' (fun a b => a.stop ≤ b.start) (findAll M l) :=
  scanAux_chain hM l.length 0 l le_rfl

/-! ### Generic helpers for the date-extraction theorem -/

/-- Membership from an index lookup. -/
theorem mem_of_idx {l : List Char} {i : Nat} {a : Char} (h : l[i]? = some a) : a ∈ l := by
  obtain ⟨hlt, rfl⟩ := List.getElem?_eq_some.mp h
  exact List.getElem_mem hlt

/-- A successful substring test splits the haystack. -/
theorem containsSub_split {needle l : List Char} (h : containsSub needle l = true) :
    ∃ pre suf, l = pre ++ needle ++ suf := by
  induction l with
  | nil =>
    simp only [containsSub, List.isEmpty_iff] at h
    exact ⟨[], [], by simp [h]⟩
  | cons c t ih =>
    simp only [containsSub, Bool.or_eq_true] at h
    rcases h with h | h
    · obtain ⟨r, hr⟩ := List.isPrefixOf_iff_prefix.mp h
      exact ⟨[], r, by simp [← hr]⟩
    · obtain ⟨pre, suf, hps⟩ := ih h
      exact ⟨c :: pre, suf, by simp [hps]⟩

/-- Whitespace is never the issue-date label head 発. -/
theorem isPyWs_ne_hatsu {x : Char} (hx : isPyWs x = true) : x ≠ '発' := by
  rintro rfl
  exact absurd hx (by decide)

/-- A digit is never the issue-date label head 発. -/
theorem isDigitU_ne_hatsu {x : Char} (hx : isDigitU x = true) : x ≠ '発' := by
  rintro rfl
  exact absurd hx (by decide)

/-- Anatomy of an issue-date match: the consumed text starts with 発 and 発
occurs nowhere later in it (every later character is the label tail, a
separator, whitespace, a digit, or one of 年月日). -/
theorem matchIssueDate_shape {l c g : List Char} (h : matchIssueDate l = some (c, g)) :
    ∃ t, c = '発' :: t ∧ ∀ x ∈ t, x ≠ '発' := by
  simp only [matchIssueDate] at h
  split at h
  · exact absurd h (by simp)
  · rename_i c1 l1 h1
    split at h
    · exact absurd h (by simp)
    · rename_i c2 l2 h2
      split at h
      · exact absurd h (by simp)
      · rename_i c3 l3 h3
        split at h
        · exact absurd h (by simp)
        · rename_i c4 l4 h4
          split at h
          · exact absurd h (by simp)
          · rename_i y4 l6 h5
            split at h
            · exact absurd h (by simp)
            · rename_i cy l7 h6
              split at h
              · exact absurd h (by simp)
              · rename_i mo l8 h7
                split at h
                · exact absurd h (by simp)
                · rename_i dd r8 h8
                  simp only [Option.some.injEq, Prod.mk.injEq] at h
                  obtain ⟨hc, -⟩ := h
                  obtain ⟨hc1, -⟩ := pChar_eq h1
                  obtain ⟨x2, hx2, hc2, -⟩ := pCharIn_eq h2
                  obtain ⟨hc3, -⟩ := pChar_eq h3
                  obtain ⟨x4, hx4, hc4, -⟩ := pCharIn_eq h4
                  obtain ⟨-, -, hy4⟩ := pExact_eq h5
                  obtain ⟨hcy, -⟩ := pChar_eq h6
                  obtain ⟨-, dsm, hmo, -, hdsm⟩ := pD12_eq h7
                  obtain ⟨-, dsd, hdd, -, hdsd⟩ := pD12_eq h8
                  have hws := (pStar_eq isPyWs l4).2
                  subst hc1; subst hc2; subst hc3; subst hc4
                  subst hcy; subst hmo; subst hdd
                  refine ⟨x2 :: '日' :: x4 :: ((pStar isPyWs l4).1 ++
                    (y4 ++ '年' :: ((dsm ++ ['月']) ++ (dsd ++ ['日'])))), ?_, ?_⟩
                  · rw [← hc]
                    simp [List.append_assoc]
                  · intro x hx
                    simp only [List.mem_cons, List.mem_append, List.mem_singleton,
                      List.not_mem_nil, or_false] at hx
                    rcases hx with rfl | hx
                    · simp only [gyoChars, List.mem_cons, List.mem_singleton,
                        List.not_mem_nil, or_false] at hx2
                      rcases hx2 with rfl | rfl <;> decide
                    rcases hx with rfl | hx
                    · decide
                    rcases hx with rfl | hx
                    · simp only [sepColon, List.mem_cons, List.mem_singleton,
                        List.not_mem_nil, or_false] at hx4
                      rcases hx4 with rfl | rfl <;> decide
                    rcases hx with hx | hx
                    · exact isPyWs_ne_hatsu (hws x hx)
                    rcases hx with hx | hx
                    · exact isDigitU_ne_hatsu (hy4 x hx)
                    rcases hx with rfl | hx
                    · decide
                    rcases hx with hx | hx
                    · rcases hx with hx | rfl
                      · exact isDigitU_ne_hatsu (hdsm x hx)
                      · decide
                    · rcases hx with hx | rfl
                      · exact isDigitU_ne_hatsu (hdsd x hx)
                      · decide

/-- The issue-date occurrence from the spec scenario, as code points. -/
def dateOccL : List Char :=
  ['発', '行', '日', '：', '2', '0', '2', '4', '年', '3', '月', '5', '日']

/-- Its captured group. -/
def dateGroupL : List Char := ['2', '0', '2', '4', '年', '3', '月', '5', '日']

/-- Anchored at the occurrence, the issue-date pattern matches exactly the
occurrence whatever text follows (the trailing 日 stops the greedy day run
without looking past it). -/
theorem matchIssueDate_at_occ (suf : List Char) :
    matchIssueDate (dateOccL ++ suf) = some (dateOccL, dateGroupL) := rfl


/-- C7: for every input text containing the substring 発行日：2024年3月5日, the
Pattern Extractor returns at least one issue-date (発行日) match whose captured
group is exactly 2024年3月5日.  No earlier match can swallow part of the
occurrence, because a match contains 発 only as its first character. -/
theorem c7_date_pattern_extraction (text : String)
    (h : containsSub dateOccL text.data = true) :
    ∃ m ∈ (analyze_text text).patterns_found.issueDate,
      m.captured_group = dateGroupL := by
  obtain ⟨pre, suf, hsplit⟩ := containsSub_split h
  have hM := matchIssueDate_sound
  have hdrop : text.data.drop pre.length = dateOccL ++ suf := by
    rw [hsplit, List.append_assoc, List.drop_left]
  have hmatch : matchIssueDate (text.data.drop pre.length) = some (dateOccL, dateGroupL) := by
    rw [hdrop]
    exact matchIssueDate_at_occ suf
  obtain ⟨m, hm, hle, hlt⟩ := findAll_cover hM hmatch
  obtain ⟨h2, h3⟩ := findAll_mem hM hm
  refine ⟨m, hm, ?_⟩
  rcases Nat.lt_or_ge m.start pre.length with hcase | hcase
  · exfalso
    obtain ⟨t, hct, hall⟩ := matchIssueDate_shape h2
    obtain ⟨hne, r, hr⟩ := hM _ _ _ h2
    have hd2 : pre.length - m.start < m.matched_text.length := by omega
    have hget1 : m.matched_text[pre.length - m.start]? =
        (text.data.drop m.start)[pre.length - m.start]? := by
      rw [hr]
      exact (List.getElem?_append_left hd2).symm
    have hget2 : (text.data.drop m.start)[pre.length - m.start]? =
        text.data[pre.length]? := by
      rw [List.getElem?_drop]
      congr 1
      omega
    have hget3 : text.data[pre.length]? = some '発' := by
      rw [hsplit, List.append_assoc, List.getElem?_append_right le_rfl]
      simp [dateOccL]
    have hchar : m.matched_text[pre.length - m.start]? = some '発' := by
      rw [hget1, hget2, hget3]
    obtain ⟨e, he⟩ : ∃ e, pre.length - m.start = e + 1 := ⟨pre.length - m.start - 1, by omega⟩
    rw [hct, he, List.getElem?_cons_succ] at hchar
    exact hall '発' (mem_of_idx hchar) rfl
  · have hst : m.start = pre.length := by omega
    rw [hst, hmatch] at h2
    injection h2 with h2p
    injection h2p with h2a h2b
    exact h2b.symm

/-- Closed witness for `c7_date_pattern_extraction` at a concrete text with
surrounding noise. -/
theorem c7_date_pattern_extraction_witness :
    ∃ m ∈ (analyze_text "x発行日：2024年3月5日y").patterns_found.issueDate,
      m.captured_group = dateGroupL :=
  c7_date_pattern_extraction "x発行日：2024年3月5日y" (by decide)



/-! ### Claim theorems: username cascade -/

/-- C1: if the first project-name-labeled line (prefix 案件名：) among the
non-last lines is immediately followed by a non-empty line, `classify`
returns that following line stripped as the username — regardless of any
payee (領収者) match elsewhere in the text, which the proof never consults. -/
theorem c1_username_line_following_priority (text : String) (i : Nat)
    (hfind : (splitNL text.data).dropLast.findIdx?
      (fun l => ankenPreL.isPrefixOf l) = some i)
    (_hne : (splitNL text.data).getD (i + 1) [] ≠ []) :
    (classify text).username =
      String.mk (pyStripL ((splitNL text.data).getD (i + 1) [])) := by
  show extract_username text = _
  unfold extract_username usernameFromTable
  have hlf : lineFollowing text =
      some (String.mk (pyStripL ((splitNL text.data).getD (i + 1) []))) := by
    simp only [lineFollowing, hfind]
  rw [hlf]

/-- Closed witness for `c1_username_line_following_priority`: the text also
contains a payee match with the different content 山田, yet alice wins. -/
theorem c1_username_line_following_priority_witness :
    ((splitNL "案件名：実験\nalice\n領収者：山田".data).dropLast.findIdx?
      (fun l => ankenPreL.isPrefixOf l) = some 0) ∧
    (splitNL "案件名：実験\nalice\n領収者：山田".data).getD 1 [] ≠ [] ∧
    (analyze_text "案件名：実験\nalice\n領収者：山田").patterns_found.ryoshusha ≠ [] ∧
    (classify "案件名：実験\nalice\n領収者：山田").username = "alice" :=
  ⟨by decide, by decide, by decide,
   (c1_username_line_following_priority "案件名：実験\nalice\n領収者：山田" 0
     (by decide) (by decide)).trans (by decide)⟩

/-- C3 counterexample: the claim says the following line is right-trimmed
only, with leading whitespace preserved; but the code calls `str.strip()`,
so on a following line with leading blanks the claimed result (with the
blanks) differs from the actual result (without them). -/
theorem c3_counterexample :
    extract_username "案件名：A\n  bob" = "bob" ∧
    extract_username "案件名：A\n  bob" ≠ "  bob" :=
  ⟨by decide, by decide⟩

/-- C3 amended: when the line-following heuristic fires, the immediately
following line is stripped of BOTH leading and trailing whitespace
(Python `str.strip()`) and returned with no validation of its content. -/
theorem c3_line_following_strips_both_sides (text : String) (i : Nat)
    (hfind : (splitNL text.data).dropLast.findIdx?
      (fun l => ankenPreL.isPrefixOf l) = some i) :
    extract_username text =
      String.mk (pyStripL ((splitNL text.data).getD (i + 1) [])) := by
  unfold extract_username usernameFromTable
  have hlf : lineFollowing text =
      some (String.mk (pyStripL ((splitNL text.data).getD (i + 1) []))) := by
    simp only [lineFollowing, hfind]
  rw [hlf]

/-- Closed witness for `c3_line_following_strips_both_sides`: leading and
trailing whitespace go, interior whitespace stays. -/
theorem c3_line_following_strips_both_sides_witness :
    ((splitNL "案件名：A\n  bob  x  ".data).dropLast.findIdx?
      (fun l => ankenPreL.isPrefixOf l) = some 0) ∧
    extract_username "案件名：A\n  bob  x  " = "bob  x" :=
  ⟨by decide,
   (c3_line_following_strips_both_sides "案件名：A\n  bob  x  " 0 (by decide)).trans
     (by decide)⟩

/-- C9: on a first line with the ASCII colon form, the project-name regex
matches (so the type is additional via its captured group), but the
line-following heuristic needs the fullwidth colon and does not fire, and
with no other username signal the result is unknown_user. -/
theorem c9_colon_form_divergence :
    (analyze_text "案件名: 追加支払い\nbob").patterns_found.anken ≠ [] ∧
    lineFollowing "案件名: 追加支払い\nbob" = none ∧
    classify "案件名: 追加支払い\nbob" =
      { project_type := "additional", username := "unknown_user" } :=
  ⟨by decide, by decide, by decide⟩

/-- The MatchTable with the four entries that the classifier never reads
(receipt number, issue date, addressee, amount) replaced by empty sequences. -/
def clearUnused (t : MatchTable) : MatchTable :=
  { receiptNo := [], issueDate := [], atena := [], ryoshusha := t.ryoshusha,
    amount := [], anken := t.anken }

/-- C10: the classification result depends only on the raw text, the 案件名
entry and the 領収者 entry; blanking the other four entries changes neither
cascade, and `classify` factors through the blanked table. -/
theorem c10_unused_entries_frame (text : String) (tbl : MatchTable) :
    usernameFromTable text (clearUnused tbl) = usernameFromTable text tbl ∧
    projectTypeFromTable text (clearUnused tbl) = projectTypeFromTable text tbl ∧
    classify text =
      { project_type :=
          projectTypeFromTable text (clearUnused (analyze_text text).patterns_found),
        username :=
          usernameFromTable text (clearUnused (analyze_text text).patterns_found) } :=
  ⟨rfl, rfl, rfl⟩


/-! ### Claim theorems: project type, totality, defaults, extractor invariant -/

/-- C2: the project type is decided by the first 案件名 match's captured group
alone when such a match exists (the marker elsewhere in the body is ignored),
and by a raw-text substring test otherwise. -/
theorem c2_project_type_cascade (text : String) :
    (∀ m ms, (analyze_text text).patterns_found.anken = m :: ms →
      extract_project_type text =
        (if containsSub tsuika.data m.captured_group then "additional" else "basic")) ∧
    ((analyze_text text).patterns_found.anken = [] →
      extract_project_type text =
        (if containsSub tsuika.data text.data then "additional" else "basic")) := by
  constructor
  · intro m ms hm
    unfold extract_project_type projectTypeFromTable
    rw [hm]
  · intro hm
    unfold extract_project_type projectTypeFromTable
    rw [hm]

/-- Closed witness for `c2_project_type_cascade`: a text whose 案件名 group
lacks the marker is basic although the marker occurs elsewhere in the body;
a text without any 案件名 match but with the marker is additional. -/
theorem c2_project_type_cascade_witness :
    containsSub tsuika.data "実験 追加支払い\n案件名：基本実験".data = true ∧
    extract_project_type "実験 追加支払い\n案件名：基本実験" = "basic" ∧
    (analyze_text "実験 追加支払い").patterns_found.anken = [] ∧
    extract_project_type "実験 追加支払い" = "additional" :=
  ⟨by decide,
   ((c2_project_type_cascade "実験 追加支払い\n案件名：基本実験").1
     { matched_text := "案件名：基本実験".data, captured_group := "基本実験".data,
       start := 9, stop := 17 } [] (by decide)).trans (by decide),
   by decide,
   ((c2_project_type_cascade "実験 追加支払い").2 (by decide)).trans (by decide)⟩

/-- C4: totality of the core.  Every string classifies to a well-formed
result: the project type is always the string basic or the string
additional, and the username is either one of the three strategies' values
or the sentinel unknown_user — never an error (the embedding is a total
function). -/
theorem c4_totality (text : String) :
    ((classify text).project_type = "basic" ∨
      (classify text).project_type = "additional") ∧
    ((∃ u, lineFollowing text = some u ∧ (classify text).username = u) ∨
      (∃ tok, searchTabular text.data = some tok ∧
        (classify text).username = pyStrip (String.mk tok)) ∨
      (∃ m ms, (analyze_text text).patterns_found.ryoshusha = m :: ms ∧
        (classify text).username = String.mk m.captured_group) ∨
      (classify text).username = "unknown_user") := by
  constructor
  · show extract_project_type text = "basic" ∨ extract_project_type text = "additional"
    unfold extract_project_type projectTypeFromTable
    cases (analyze_text text).patterns_found.anken with
    | nil =>
      cases hc : containsSub tsuika.data text.data <;> simp [hc]
    | cons m ms =>
      cases hc : containsSub tsuika.data m.captured_group <;> simp [hc]
  · show (∃ u, lineFollowing text = some u ∧ extract_username text = u) ∨
      (∃ tok, searchTabular text.data = some tok ∧
        extract_username text = pyStrip (String.mk tok)) ∨
      (∃ m ms, (analyze_text text).patterns_found.ryoshusha = m :: ms ∧
        extract_username text = String.mk m.captured_group) ∨
      extract_username text = "unknown_user"
    unfold extract_username usernameFromTable
    cases hlf : lineFollowing text with
    | some u => exact Or.inl ⟨u, rfl, rfl⟩
    | none =>
      cases hst : searchTabular text.data with
      | some tok => exact Or.inr (Or.inl ⟨tok, rfl, rfl⟩)
      | none =>
        cases hry : (analyze_text text).patterns_found.ryoshusha with
        | nil => exact Or.inr (Or.inr (Or.inr rfl))
        | cons m ms => exact Or.inr (Or.inr (Or.inl ⟨m, ms, rfl, rfl⟩))

/-- C5 counterexample: the bare marker text 追加支払い defeats the claim: all
six patterns fail on it, no line has the project-name prefix and the tabular
structure is absent, yet `classify` returns additional (from the raw-text
substring branch), not basic. -/
theorem c5_counterexample :
    (∀ lab : PatternLabel,
      tableEntry (analyze_text "追加支払い").patterns_found lab = []) ∧
    (splitNL "追加支払い".data).dropLast = [] ∧
    searchTabular "追加支払い".data = none ∧
    classify "追加支払い" ≠ { project_type := "basic", username := "unknown_user" } := by
  refine ⟨?_, by decide, by decide, by decide⟩
  intro lab
  cases lab <;> decide

/-- C5 amended: for text on which none of the six patterns matches, no
non-last line starts with the project-name prefix, the tabular structure is
absent, AND the text does not contain the substring 追加支払い, classification
returns basic and unknown_user.  (The last condition is forced: without it
the raw-text fallback of the project-type cascade can still answer
additional, as the counterexample shows.) -/
theorem c5_default_safety_amended (text : String)
    (h1 : ∀ lab : PatternLabel,
      tableEntry (analyze_text text).patterns_found lab = [])
    (h2 : ∀ l ∈ (splitNL text.data).dropLast, ankenPreL.isPrefixOf l = false)
    (h3 : searchTabular text.data = none)
    (h4 : containsSub tsuika.data text.data = false) :
    classify text = { project_type := "basic", username := "unknown_user" } := by
  have hu : extract_username text = "unknown_user" := by
    unfold extract_username usernameFromTable
    have hlf : lineFollowing text = none := by
      have hfi : (splitNL text.data).dropLast.findIdx?
          (fun l => ankenPreL.isPrefixOf l) = none := by
        rw [List.findIdx?_eq_none_iff]
        intro x hx
        simp [h2 x hx]
      simp only [lineFollowing, hfi]
    have hry : (analyze_text text).patterns_found.ryoshusha = [] :=
      h1 PatternLabel.ryoshusha
    rw [hlf, h3, hry]
  have hp : extract_project_type text = "basic" := by
    unfold extract_project_type projectTypeFromTable
    have han : (analyze_text text).patterns_found.anken = [] :=
      h1 PatternLabel.anken
    rw [han, h4]
    simp
  show ClassificationResult.mk (extract_project_type text) (extract_username text) = _
  rw [hu, hp]

/-- Closed witness for `c5_default_safety_amended` on plain ASCII text. -/
theorem c5_default_safety_amended_witness :
    classify "hello world" = { project_type := "basic", username := "unknown_user" } :=
  c5_default_safety_amended "hello world"
    (by intro lab; cases lab <;> decide)
    (by decide) (by decide) (by decide)


/-- C6: the Pattern Extractor postcondition.  For every text and every one of
the six labels: the table entry is exactly the finditer scan of that label's
pattern; the matches are non-overlapping and listed left to right; each match
is anchored at its recorded start, spans `[start, stop)` inside the text,
records as matched text precisely the text slice of its span, and its
captured group is the group the pattern yields there; and every position at
which the pattern matches is covered by some listed match.  A label with no
occurrence simply has the empty entry — the structure always carries all six
entries. -/
theorem c6_matchtable_invariant (text : String) (lab : PatternLabel) :
    tableEntry (analyze_text text).patterns_found lab = findAll (matcherOf lab) text.data ∧
    List.Chain' (fun a b => a.stop ≤ b.start)
      (tableEntry (analyze_text text).patterns_found lab) ∧
    (∀ m ∈ tableEntry (analyze_text text).patterns_found lab,
      m.start < m.stop ∧ m.stop ≤ text.length ∧
      m.stop = m.start + m.matched_text.length ∧
      (text.data.drop m.start).take m.matched_text.length = m.matched_text ∧
      matcherOf lab (text.data.drop m.start) = some (m.matched_text, m.captured_group)) ∧
    (∀ (p : Nat) (c g : List Char), matcherOf lab (text.data.drop p) = some (c, g) →
      ∃ m ∈ tableEntry (analyze_text text).patterns_found lab,
        m.start ≤ p ∧ p < m.stop) := by
  have hE : tableEntry (analyze_text text).patterns_found lab =
      findAll (matcherOf lab) text.data := by
    cases lab <;> rfl
  have hM := matcherOf_sound lab
  refine ⟨hE, ?_, ?_, ?_⟩
  · rw [hE]
    exact findAll_chain hM _
  · intro m hm
    rw [hE] at hm
    obtain ⟨h2, h3⟩ := findAll_mem hM hm
    obtain ⟨hne, r, hr⟩ := hM _ _ _ h2
    have hlen := congrArg List.length hr
    rw [List.length_append, List.length_drop] at hlen
    have hpos : 0 < m.matched_text.length := List.length_pos.mpr hne
    have hsl : text.length = text.data.length := rfl
    refine ⟨by omega, by omega, h3, ?_, h2⟩
    rw [hr]
    exact List.take_left _ _
  · intro p c g hp
    rw [hE]
    exact findAll_cover hM hp

/-- Closed witness for `c6_matchtable_invariant`: its coverage component
applied to the amount pattern matching at position 3 of a concrete text. -/
theorem c6_matchtable_invariant_witness :
    ∃ m ∈ tableEntry (analyze_text "金額 ￥1,234").patterns_found PatternLabel.amount,
      m.start ≤ 3 ∧ 3 < m.stop :=
  (c6_matchtable_invariant "金額 ￥1,234" PatternLabel.amount).2.2.2 3
    "￥1,234".data "1,234".data (by decide)

/-- C8: determinism and log transparency.  The core is a pure function of the
input string — two calls on the same text give the same `Analysis` and the
same `ClassificationResult` — and the diagnostic messages modelled in the
`_log` variants never change the returned value. -/
theorem c8_determinism_log_transparency (text : String) :
    classify text = classify text ∧
    analyze_text text = analyze_text text ∧
    (extract_username_log text).1 = extract_username text ∧
    (extract_project_type_log text).1 = extract_project_type text := by
  refine ⟨rfl, rfl, ?_, ?_⟩
  · unfold extract_username_log extract_username usernameFromTable
    cases lineFollowing text with
    | some u => rfl
    | none =>
      cases searchTabular text.data with
      | some tok => rfl
      | none =>
        cases (analyze_text text).patterns_found.ryoshusha with
        | nil => rfl
        | cons m ms => rfl
  · unfold extract_project_type_log extract_project_type projectTypeFromTable
    cases (analyze_text text).patterns_found.anken with
    | nil =>
      cases hc : containsSub tsuika.data text.data <;> simp [hc]
    | cons m ms =>
      cases hc : containsSub tsuika.data m.captured_group <;> simp [hc]


end PdfOrganizer
